import Mathlib

/-!
Verification of the `bitrw` library: a `BitReader` adding bit-level reads (and
bit-addressed seeking) on top of a byte source, and a `BitWriter` adding
bit-level writes on top of a byte sink.

The model is a shallow embedding of `src/lib.rs`:
* the underlying byte source of a reader is modelled as a list of bytes
  together with a cursor position (the behaviour of `io::Read::read_exact`
  over a seekable byte stream such as `io::Cursor`);
* the underlying byte sink of a writer is modelled as a growable list of
  bytes (the behaviour of `io::Write::write_all` on a `Vec<u8>`);
* `u64` arithmetic is modelled on `Nat` with explicit `% 2 ^ 64` where the
  source performs wrapping operations, and byte extraction (`as u8`) as
  `% 256`;
* fallible operations return `Except RErr` (reader) or `Option` (writer);
  an `assert!` failure is modelled as `RErr.assertFail` (reader) resp.
  `none` (writer).
-/

/-- The `MASKS` table from the source: `MASKS[n] = 2^n - 1` for `n < 8`. -/
def MASKS : List Nat := [0, 0b1, 0b11, 0b111, 0b1111, 0b11111, 0b111111, 0b1111111]

/-- `MASKS[n]` (indexing the table; in-bounds at every reachable call site). -/
def maskAt (n : Nat) : Nat := MASKS.getD n 0

/-- Errors surfaced by reader operations.  `endOfStream` models a failed
`read_exact`, `assertFail` models an `assert!` violation (abnormal
termination), `unsupported` the "not yet supported" seek errors, and
`negativeSeek` a seek of the underlying stream to a negative position. -/
inductive RErr where
  | endOfStream
  | assertFail
  | unsupported
  | negativeSeek
deriving Repr, DecidableEq

deriving instance DecidableEq for Except

/-- Model of `BitReader<R>`: `data`/`pos` model the underlying seekable byte
stream `inner` and its cursor; `buffer` is `buffer[0]`, `unused` as in the
source. -/
structure BitReader where
  data : List Nat
  pos : Nat
  buffer : Nat
  unused : Nat
deriving Repr, DecidableEq

/-- `BitReader::new`. -/
def BitReader.new (data : List Nat) : BitReader :=
  { data := data, pos := 0, buffer := 0, unused := 0 }

/-- `BitReader::reset`. -/
def BitReader.reset (s : BitReader) : BitReader :=
  { s with buffer := 0, unused := 0 }

/-- The `while rbits > self.unused` loop of `BitReader::read_bits`: shift the
cached bits into position, refill the one-byte buffer from the stream, repeat.
Returns the accumulated result, the remaining bit count and the state. -/
def readBitsLoop (ret rbits : Nat) (s : BitReader) : Except RErr (Nat × Nat × BitReader) :=
  if s.unused < rbits then
    let ret := ret ||| (s.buffer <<< (rbits - s.unused)) % 2 ^ 64
    let rbits := rbits - s.unused
    match s.data[s.pos]? with
    | some b => readBitsLoop ret rbits { s with pos := s.pos + 1, buffer := b, unused := 8 }
    | none => .error .endOfStream
  else
    .ok (ret, rbits, s)
termination_by 2 * rbits + (if s.unused = 0 then 1 else 0)
decreasing_by
  all_goals simp_wf
  all_goals split <;> omega

/-- `BitReader::read_bits`. -/
def BitReader.read_bits (nbits : Nat) (s : BitReader) : Except RErr (Nat × BitReader) :=
  if 64 < nbits then .error .assertFail
  else
    match readBitsLoop 0 nbits s with
    | .error e => .error e
    | .ok (ret, rbits, s) =>
      if 0 < rbits then
        .ok (ret ||| s.buffer >>> (s.unused - rbits),
          { s with buffer := s.buffer &&& maskAt (s.unused - rbits),
                   unused := s.unused - rbits })
      else
        .ok (ret, s)

/-- `BitReader::read_bit` (the `as u8` narrowing is `% 256`). -/
def BitReader.read_bit (s : BitReader) : Except RErr (Nat × BitReader) :=
  match s.read_bits 1 with
  | .error e => .error e
  | .ok (bit, s) => .ok (bit % 256, s)

/-- `std::io::SeekFrom`, with the payload types of the source (`u64` for
`Start`, `i64` for `End` and `Current`). -/
inductive SeekFrom where
  | fromStart (p : Nat)
  | fromEnd (p : Int)
  | fromCurrent (p : Int)
deriving Repr, DecidableEq

/-- `BitReader::seek`.  The underlying stream's `seek(Start(n))` sets the byte
cursor to `n`; its `seek(End(off))` sets it to `len + off`, failing on a
negative target.  Rust's `i64` `/` and `%` truncate toward zero, hence
`Int.div` / `Int.mod`; the `(pos % 8) as u64` cast and the `u64` addition in
the `End` branch wrap modulo `2 ^ 64`. -/
def BitReader.seek (pos : SeekFrom) (s : BitReader) : Except RErr (Nat × BitReader) :=
  match pos with
  | .fromStart p =>
    let s := s.reset
    let s := { s with pos := p / 8 }
    match s.read_bits (p % 8) with
    | .error e => .error e
    | .ok (_, s) => .ok (p, s)
  | .fromEnd p =>
    let s := s.reset
    if p < 0 then
      let bypos := Int.tdiv p 8
      let bipos : Int := 8 - Int.tmod p 8
      let bypos := if 0 < bipos then bypos - 1 else bypos
      let npos : Int := (s.data.length : Int) + bypos
      if npos < 0 then .error .negativeSeek
      else
        let ipos := npos.toNat
        let s := { s with pos := ipos }
        match s.read_bits bipos.toNat with
        | .error e => .error e
        | .ok (_, s) => .ok ((ipos + ((Int.tmod p 8) % (2 ^ 64 : Int)).toNat) % 2 ^ 64, s)
    else .error .unsupported
  | .fromCurrent _ => .error .unsupported

/-- Model of `BitWriter<W>`: `output` models the bytes accepted so far by the
underlying sink `inner`; `buffer` and `unused` as in the source. -/
structure BitWriter where
  output : List Nat
  buffer : Nat
  unused : Nat
deriving Repr, DecidableEq

/-- `BitWriter::new`. -/
def BitWriter.new : BitWriter :=
  { output := [], buffer := 0, unused := 8 }

/-- The `while nbits_remaining >= 8` loop of `BitWriter::write_bits`: emit
full bytes sliced from `value`, highest-order first. -/
def writeFullBytes (rbits value : Nat) (w : BitWriter) : Nat × BitWriter :=
  if 8 ≤ rbits then
    writeFullBytes (rbits - 8) value
      { w with output := w.output ++ [value >>> (rbits - 8) % 256] }
  else
    (rbits, w)

/-- `BitWriter::write_bits`. -/
def BitWriter.write_bits (nbits value : Nat) (w : BitWriter) : Option (Nat × BitWriter) :=
  if 64 < nbits then none
  else
    -- can we fill up a partial byte?
    let step1 : Nat × BitWriter :=
      if w.unused ≤ nbits ∧ w.unused < 8 then
        let excess_bits := nbits - w.unused
        let buf := (w.buffer <<< w.unused) % 2 ^ 64
        let buf := buf ||| (value >>> excess_bits) &&& maskAt w.unused
        (excess_bits, { output := w.output ++ [buf % 256], buffer := 0, unused := 8 })
      else
        (nbits, w)
    -- write while we can fill up full bytes
    let step2 := writeFullBytes step1.1 value step1.2
    -- put the remaining bits in the buffer
    let w2 := step2.2
    let w3 :=
      if 0 < step2.1 then
        { w2 with
          buffer := ((w2.buffer <<< step2.1) % 2 ^ 64) ||| value &&& maskAt step2.1,
          unused := w2.unused - step2.1 }
      else w2
    some (nbits, w3)

/-- `BitWriter::write_bit`. -/
def BitWriter.write_bit (bit : Nat) (w : BitWriter) : Option BitWriter :=
  if 1 < bit then none
  else
    match w.write_bits 1 bit with
    | some (_, w) => some w
    | none => none

/-- `BitWriter::flush_bits`.  Note that the source resets `unused` but leaves
`buffer` untouched. -/
def BitWriter.flush_bits (w : BitWriter) : Nat × BitWriter :=
  if w.unused ≠ 8 then
    (w.unused,
      { w with output := w.output ++ [(w.buffer <<< w.unused) % 2 ^ 64 % 256], unused := 8 })
  else
    (0, w)

/-- `BitWriter::flush` (flushing the underlying `Vec`-like sink is a no-op). -/
def BitWriter.flush (w : BitWriter) : Nat × BitWriter :=
  w.flush_bits

/-! ## Bit-sequence denotations -/

/-- The low `n` bits of `v`, most significant first. -/
def bitsOfNat : Nat → Nat → List Bool
  | 0, _ => []
  | n + 1, v => v.testBit n :: bitsOfNat n v

/-- The number denoted by a bit list, most significant first. -/
def natOfBits (l : List Bool) : Nat :=
  l.foldl (fun a b => 2 * a + b.toNat) 0

/-- The bit sequence carried by a byte list (each byte MSB-first). -/
def bytesBits (l : List Nat) : List Bool :=
  (l.map (bitsOfNat 8)).flatten

/-- The sequence of bits a reader has yet to deliver: the valid low `unused`
bits of the cached byte, then the bits of the bytes not yet fetched. -/
def BitReader.rBits (s : BitReader) : List Bool :=
  bitsOfNat s.unused s.buffer ++ bytesBits (s.data.drop s.pos)

/-- Reader invariant: `unused ≤ 8`, the cached byte has all consumed
(high-order) bits masked off, and the underlying stream holds bytes. -/
def RInv (s : BitReader) : Prop :=
  s.unused ≤ 8 ∧ s.buffer < 2 ^ s.unused ∧ ∀ b ∈ s.data, b < 256

/-- The sequence of bits delivered to a writer so far: the bits of the bytes
already emitted, then the meaningful low `8 - unused` bits of the
accumulator. -/
def BitWriter.wBits (w : BitWriter) : List Bool :=
  bytesBits w.output ++ bitsOfNat (8 - w.unused) w.buffer

/-- Writer invariant: `1 ≤ unused ≤ 8` and all emitted bytes are bytes. -/
def WInv (w : BitWriter) : Prop :=
  1 ≤ w.unused ∧ w.unused ≤ 8 ∧ ∀ b ∈ w.output, b < 256

instance (s : BitReader) : Decidable (RInv s) := by unfold RInv; infer_instance

instance (w : BitWriter) : Decidable (WInv w) := by unfold WInv; infer_instance

/-! ## Sequenced operations (for the round-trip properties) -/

/-- Write an ordered sequence of `(nbits, value)` pairs with `write_bits`. -/
def writeSeq : List (Nat × Nat) → BitWriter → Option BitWriter
  | [], w => some w
  | p :: ps, w =>
    match w.write_bits p.1 p.2 with
    | some (_, w) => writeSeq ps w
    | none => none

/-- Read back an ordered sequence of bit widths with `read_bits`. -/
def readSeq : List Nat → BitReader → Except RErr (List Nat × BitReader)
  | [], s => .ok ([], s)
  | n :: ns, s =>
    match s.read_bits n with
    | .error e => .error e
    | .ok (v, s) =>
      match readSeq ns s with
      | .error e => .error e
      | .ok (vs, s) => .ok (v :: vs, s)

/-- Read `k` single bits with `read_bit`. -/
def readBitsAll : Nat → BitReader → Except RErr (List Nat × BitReader)
  | 0, s => .ok ([], s)
  | k + 1, s =>
    match s.read_bit with
    | .error e => .error e
    | .ok (b, s) =>
      match readBitsAll k s with
      | .error e => .error e
      | .ok (l, s) => .ok (b :: l, s)

/-- The bit sequence denoted by a list of `(nbits, value)` pairs. -/
def pairsBits (ps : List (Nat × Nat)) : List Bool :=
  (ps.map (fun p => bitsOfNat p.1 p.2)).flatten

/-! ## Helper lemmas: masks, bit lists -/

theorem maskAt_eq : ∀ n < 8, maskAt n = 2 ^ n - 1 := by decide

theorem bitsOfNat_length (n v : Nat) : (bitsOfNat n v).length = n := by
  induction n generalizing v with
  | zero => rfl
  | succ n ih => simp [bitsOfNat, ih]

theorem natOfBits_foldl (a : Nat) (l : List Bool) :
    l.foldl (fun a b => 2 * a + b.toNat) a = a * 2 ^ l.length + natOfBits l := by
  induction l generalizing a with
  | nil => simp [natOfBits]
  | cons b l ih =>
    show List.foldl (fun a b => 2 * a + b.toNat) (2 * a + b.toNat) l = _
    rw [ih]
    have h2 : natOfBits (b :: l) = b.toNat * 2 ^ l.length + natOfBits l := by
      show List.foldl (fun a b => 2 * a + b.toNat) (2 * 0 + b.toNat) l = _
      rw [ih]
      ring
    rw [h2, List.length_cons]
    ring

theorem natOfBits_cons (b : Bool) (l : List Bool) :
    natOfBits (b :: l) = b.toNat * 2 ^ l.length + natOfBits l := by
  show List.foldl (fun a b => 2 * a + b.toNat) (2 * 0 + b.toNat) l = _
  rw [natOfBits_foldl]
  ring

theorem natOfBits_append (l m : List Bool) :
    natOfBits (l ++ m) = natOfBits l * 2 ^ m.length + natOfBits m := by
  rw [natOfBits, List.foldl_append, ← natOfBits, natOfBits_foldl]

theorem natOfBits_lt (l : List Bool) : natOfBits l < 2 ^ l.length := by
  induction l with
  | nil => simp [natOfBits]
  | cons b l ih =>
    rw [natOfBits_cons, List.length_cons, pow_succ]
    have hb : b.toNat ≤ 1 := Bool.toNat_le b
    nlinarith

theorem natOfBits_bitsOfNat (n v : Nat) : natOfBits (bitsOfNat n v) = v % 2 ^ n := by
  induction n with
  | zero => simp [bitsOfNat, natOfBits, Nat.mod_one]
  | succ n ih =>
    rw [bitsOfNat, natOfBits_cons, bitsOfNat_length, ih]
    have h1 : (v.testBit n).toNat = v / 2 ^ n % 2 := by
      rw [Nat.testBit_to_div_mod]
      rcases Nat.mod_two_eq_zero_or_one (v / 2 ^ n) with h | h <;> simp [h]
    rw [h1]
    have h2 : v % 2 ^ (n + 1) = 2 ^ n * (v / 2 ^ n % 2) + v % 2 ^ n := by
      rw [pow_succ, Nat.mod_mul]
      ring
    rw [h2]
    ring

theorem bitsOfNat_split (m n v : Nat) :
    bitsOfNat (m + n) v = bitsOfNat m (v >>> n) ++ bitsOfNat n v := by
  induction m with
  | zero => simp [bitsOfNat]
  | succ m ih =>
    have : m + 1 + n = (m + n) + 1 := by omega
    rw [this, bitsOfNat, ih, bitsOfNat, Nat.testBit_shiftRight, Nat.add_comm n m]
    rfl

theorem bitsOfNat_congr {n v w : Nat} (h : v % 2 ^ n = w % 2 ^ n) :
    bitsOfNat n v = bitsOfNat n w := by
  induction n with
  | zero => rfl
  | succ n ih =>
    have hmod : v % 2 ^ n = w % 2 ^ n := by
      have hd : (2 : Nat) ^ n ∣ 2 ^ (n + 1) := pow_dvd_pow 2 (by omega)
      rw [← Nat.mod_mod_of_dvd v hd, ← Nat.mod_mod_of_dvd w hd, h]
    have hbit : v.testBit n = w.testBit n := by
      have hv := Nat.testBit_mod_two_pow v (n + 1) n
      have hw := Nat.testBit_mod_two_pow w (n + 1) n
      simp only [Nat.lt_succ_self, decide_True, Bool.true_and] at hv hw
      rw [← hv, ← hw, h]
    rw [bitsOfNat, bitsOfNat, hbit, ih hmod]

theorem bitsOfNat_mod_le {n m : Nat} (v : Nat) (h : n ≤ m) :
    bitsOfNat n (v % 2 ^ m) = bitsOfNat n v :=
  bitsOfNat_congr (Nat.mod_mod_of_dvd v (pow_dvd_pow 2 h))

theorem bitsOfNat_zero (n : Nat) : bitsOfNat n 0 = List.replicate n false := by
  induction n with
  | zero => rfl
  | succ n ih => simp [bitsOfNat, ih, List.replicate_succ]

theorem bitsOfNat_take {k n : Nat} (v : Nat) (h : k ≤ n) :
    (bitsOfNat n v).take k = bitsOfNat k (v >>> (n - k)) := by
  conv_lhs => rw [show n = k + (n - k) by omega, bitsOfNat_split]
  rw [List.take_left' (bitsOfNat_length _ _)]

theorem bitsOfNat_drop {k n : Nat} (v : Nat) (h : k ≤ n) :
    (bitsOfNat n v).drop k = bitsOfNat (n - k) v := by
  conv_lhs => rw [show n = k + (n - k) by omega, bitsOfNat_split]
  rw [List.drop_left' (bitsOfNat_length _ _)]

/-! ## Helper lemmas: `|||`, `<<<`, `>>>`, `%` interaction -/

theorem lor_two_pow_add {k b : Nat} (a : Nat) (hb : b < 2 ^ k) :
    (a * 2 ^ k) ||| b = a * 2 ^ k + b := by
  induction k generalizing b with
  | zero =>
    interval_cases b
    simp
  | succ k ih =>
    have hbit : Nat.bit (b.testBit 0) (b >>> 1) = b := Nat.bit_testBit_zero_shiftRight_one b
    have hmul : a * 2 ^ (k + 1) = Nat.bit false (a * 2 ^ k) := by
      rw [Nat.bit_val, Bool.toNat_false, Nat.add_zero, pow_succ]
      ring
    have hlt : b >>> 1 < 2 ^ k := by
      rw [Nat.shiftRight_one]
      have : 2 ^ (k + 1) = 2 * 2 ^ k := by ring
      omega
    calc a * 2 ^ (k + 1) ||| b
        = Nat.bit false (a * 2 ^ k) ||| Nat.bit (b.testBit 0) (b >>> 1) := by rw [hmul, hbit]
      _ = Nat.bit (false || b.testBit 0) ((a * 2 ^ k) ||| (b >>> 1)) := Nat.lor_bit _ _ _ _
      _ = Nat.bit (b.testBit 0) (a * 2 ^ k + b >>> 1) := by rw [Bool.false_or, ih hlt]
      _ = a * 2 ^ (k + 1) + b := by
          rw [Nat.bit_val] at hbit ⊢
          rw [Nat.shiftRight_one] at hbit ⊢
          have h1 : a * 2 ^ (k + 1) = 2 * (a * 2 ^ k) := by rw [pow_succ]; ring
          omega

theorem lor_low_high {a b k : Nat} (ha : a % 2 ^ k = 0) (hb : b < 2 ^ k) :
    a ||| b = a + b := by
  have : a = a / 2 ^ k * 2 ^ k := by
    rw [Nat.div_mul_cancel (Nat.dvd_of_mod_eq_zero ha)]
  rw [this] at *
  exact lor_two_pow_add _ hb

theorem shiftLeft_lor_distrib (x y k : Nat) : (x <<< k) ||| (y <<< k) = (x ||| y) <<< k := by
  apply Nat.eq_of_testBit_eq
  intro i
  simp only [Nat.testBit_or, Nat.testBit_shiftLeft]
  cases Nat.decLe k i with
  | isTrue h => simp [h]
  | isFalse h => simp [h]

theorem shl_mod_low {k n : Nat} (B : Nat) (hk : k ≤ n) :
    ((B <<< k) % 2 ^ n) % 2 ^ k = 0 := by
  rw [Nat.mod_mod_of_dvd _ (pow_dvd_pow 2 hk), Nat.shiftLeft_eq, Nat.mul_mod_left]

theorem shl_mod_shr {k n : Nat} (B : Nat) (hk : k ≤ n) :
    ((B <<< k) % 2 ^ n) >>> k = B % 2 ^ (n - k) := by
  apply Nat.eq_of_testBit_eq
  intro i
  simp only [Nat.testBit_shiftRight, Nat.testBit_mod_two_pow, Nat.testBit_shiftLeft]
  rcases Nat.lt_or_ge i (n - k) with h | h
  · have h1 : k + i < n := by omega
    have h2 : k ≤ k + i := by omega
    simp [h, h1, h2, Nat.add_sub_cancel_left]
  · have h1 : ¬ (k + i < n) := by omega
    have h2 : ¬ (i < n - k) := by omega
    simp [h1, h2]

theorem shiftRight_lt_of_lt {B k n : Nat} (hB : B < 2 ^ n) (hk : k ≤ n) :
    B >>> (n - k) < 2 ^ k := by
  rw [Nat.shiftRight_eq_div_pow]
  apply Nat.div_lt_of_lt_mul
  calc B < 2 ^ n := hB
    _ = 2 ^ (n - k) * 2 ^ k := by rw [← pow_add]; congr 1; omega

theorem shiftLeft_lt_pow {x n m k : Nat} (h : x < 2 ^ n) (hnm : n + m ≤ k) :
    x <<< m < 2 ^ k :=
  lt_of_lt_of_le (Nat.shiftLeft_lt h) (Nat.pow_le_pow_right (by omega) hnm)

/-! ## Helper lemmas: byte streams -/

theorem bytesBits_nil : bytesBits [] = [] := rfl

theorem bytesBits_cons (b : Nat) (l : List Nat) :
    bytesBits (b :: l) = bitsOfNat 8 b ++ bytesBits l := by
  simp [bytesBits]

theorem bytesBits_append (l m : List Nat) :
    bytesBits (l ++ m) = bytesBits l ++ bytesBits m := by
  simp [bytesBits]

theorem bytesBits_length (l : List Nat) : (bytesBits l).length = 8 * l.length := by
  induction l with
  | nil => rfl
  | cons b l ih =>
    rw [bytesBits_cons, List.length_append, bitsOfNat_length, ih, List.length_cons]
    ring

theorem bytesBits_drop (k : Nat) (l : List Nat) :
    (bytesBits l).drop (8 * k) = bytesBits (l.drop k) := by
  induction k generalizing l with
  | zero => simp
  | succ k ih =>
    cases l with
    | nil => simp [bytesBits_nil]
    | cons b l =>
      rw [bytesBits_cons,
        show 8 * (k + 1) = (bitsOfNat 8 b).length + 8 * k by rw [bitsOfNat_length]; ring,
        List.drop_append, ih, List.drop_succ_cons]

/-! ## Reader correctness -/

theorem readBitsLoop_spec :
    ∀ (ret rbits : Nat) (s : BitReader) (c : Nat),
      ret = c <<< rbits → RInv s → rbits ≤ 64 → c < 2 ^ (64 - rbits) →
      rbits ≤ (BitReader.rBits s).length →
      ∃ rbits2 s2,
        readBitsLoop ret rbits s =
          .ok ((c * 2 ^ (rbits - rbits2) +
                natOfBits ((BitReader.rBits s).take (rbits - rbits2))) <<< rbits2,
               rbits2, s2) ∧
        rbits2 ≤ rbits ∧ rbits2 ≤ s2.unused ∧ RInv s2 ∧ s2.data = s.data ∧
        BitReader.rBits s2 = (BitReader.rBits s).drop (rbits - rbits2) := by
  intro ret rbits s
  induction ret, rbits, s using readBitsLoop.induct with
  | case1 ret rbits s hlt r1 rb1 b hb ih =>
    intro c hc hInv h64 hcb hlen
    obtain ⟨hu8, hbuf, hdata⟩ := hInv
    have hr1 : r1 = ret ||| (s.buffer <<< (rbits - s.unused)) % 2 ^ 64 := rfl
    have hrb1 : rb1 = rbits - s.unused := rfl
    obtain ⟨hpos, helem⟩ := List.getElem?_eq_some_iff.mp hb
    have hstep : readBitsLoop ret rbits s =
        readBitsLoop r1 rb1 { data := s.data, pos := s.pos + 1, buffer := b, unused := 8 } := by
      rw [readBitsLoop, if_pos hlt, hb]
    have hb256 : b < 256 := by
      apply hdata
      rw [← helem]
      exact List.getElem_mem hpos
    have hInv1 : RInv { data := s.data, pos := s.pos + 1, buffer := b, unused := 8 } := by
      refine ⟨le_rfl, ?_, ?_⟩
      · show b < 2 ^ 8
        omega
      · show ∀ x ∈ s.data, x < 256
        exact hdata
    have hdropPos : s.data.drop s.pos = b :: s.data.drop (s.pos + 1) := by
      rw [List.drop_eq_getElem_cons hpos, helem]
    have hsplit : BitReader.rBits s = bitsOfNat s.unused s.buffer ++
        BitReader.rBits { data := s.data, pos := s.pos + 1, buffer := b, unused := 8 } := by
      simp only [BitReader.rBits]
      rw [hdropPos, bytesBits_cons]
    have hlen1 : (BitReader.rBits s).length = s.unused +
        (BitReader.rBits { data := s.data, pos := s.pos + 1, buffer := b, unused := 8 }).length := by
      rw [hsplit, List.length_append, bitsOfNat_length]
    have hshl : (s.buffer <<< (rbits - s.unused)) % 2 ^ 64 = s.buffer <<< (rbits - s.unused) :=
      Nat.mod_eq_of_lt (shiftLeft_lt_pow hbuf (by omega))
    have hsplitShl : c <<< rbits = (c <<< s.unused) <<< (rbits - s.unused) := by
      rw [← Nat.shiftLeft_add]
      congr 1
      omega
    have hret1 : r1 = (c * 2 ^ s.unused + s.buffer) <<< rb1 := by
      rw [hr1, hrb1, hshl, hc, hsplitShl, shiftLeft_lor_distrib, Nat.shiftLeft_eq c s.unused,
        lor_two_pow_add c hbuf]
    have hc1 : c * 2 ^ s.unused + s.buffer < 2 ^ (64 - rb1) := by
      have h1 : (c + 1) * 2 ^ s.unused ≤ 2 ^ (64 - rbits) * 2 ^ s.unused :=
        Nat.mul_le_mul_right _ (by omega)
      have h2 : (2 : Nat) ^ (64 - rbits) * 2 ^ s.unused = 2 ^ (64 - rb1) := by
        rw [← pow_add]
        congr 1
        omega
      have h3 : (c + 1) * 2 ^ s.unused = c * 2 ^ s.unused + 2 ^ s.unused := by ring
      omega
    have h64b : rb1 ≤ 64 := by omega
    have hlenb : rb1 ≤
        (BitReader.rBits { data := s.data, pos := s.pos + 1, buffer := b, unused := 8 }).length := by
      have hx : s.unused + rb1 = rbits := by omega
      refine Nat.le_of_add_le_add_left (a := s.unused) ?_
      rw [hx, ← hlen1]
      exact hlen
    obtain ⟨rbits2, s2, heq, hle, hle2, hinv2, hdata2, hbits2⟩ :=
      ih (c * 2 ^ s.unused + s.buffer) hret1 hInv1 h64b hc1 hlenb
    refine ⟨rbits2, s2, ?_, by omega, hle2, hinv2, hdata2, ?_⟩
    · have htlen : ((BitReader.rBits
            { data := s.data, pos := s.pos + 1, buffer := b, unused := 8 }).take
            (rb1 - rbits2)).length = rb1 - rbits2 := by
        rw [List.length_take]
        exact min_eq_left (le_trans (by omega : rb1 - rbits2 ≤ rb1) hlenb)
      have htake : (BitReader.rBits s).take (rbits - rbits2) =
          bitsOfNat s.unused s.buffer ++
          (BitReader.rBits { data := s.data, pos := s.pos + 1, buffer := b, unused := 8 }).take
            (rb1 - rbits2) := by
        rw [hsplit,
          show rbits - rbits2 = (bitsOfNat s.unused s.buffer).length + (rb1 - rbits2) by
            rw [bitsOfNat_length]; omega,
          List.take_append]
      have hinner : (c * 2 ^ s.unused + s.buffer) * 2 ^ (rb1 - rbits2)
            + natOfBits ((BitReader.rBits
                { data := s.data, pos := s.pos + 1, buffer := b, unused := 8 }).take
                (rb1 - rbits2))
          = c * 2 ^ (rbits - rbits2) +
            natOfBits ((BitReader.rBits s).take (rbits - rbits2)) := by
        rw [htake, natOfBits_append, htlen, natOfBits_bitsOfNat, Nat.mod_eq_of_lt hbuf,
          show rbits - rbits2 = s.unused + (rb1 - rbits2) by omega,
          pow_add]
        ring
      rw [hstep, heq, hinner]
    · rw [hbits2, hsplit,
        show rbits - rbits2 = s.unused + (rb1 - rbits2) by omega,
        ← List.drop_drop, List.drop_left' (bitsOfNat_length _ _)]
  | case2 ret rbits s hlt hb =>
    intro c hc hInv h64 hcb hlen
    exfalso
    have hnil : s.data.drop s.pos = [] := by
      rw [List.drop_eq_nil_iff]
      exact List.getElem?_eq_none_iff.mp hb
    have : (BitReader.rBits s).length = s.unused := by
      rw [BitReader.rBits, hnil, bytesBits_nil, List.append_nil, bitsOfNat_length]
    omega
  | case3 ret rbits s hge =>
    intro c hc hInv h64 hcb hlen
    refine ⟨rbits, s, ?_, le_rfl, by omega, hInv, rfl, by simp⟩
    rw [readBitsLoop, if_neg hge, hc]
    simp [natOfBits]

theorem natOfBits_take_lt (l : List Bool) (n : Nat) : natOfBits (l.take n) < 2 ^ n :=
  lt_of_lt_of_le (natOfBits_lt _)
    (Nat.pow_le_pow_right (by omega) (le_trans (l.length_take n).le (min_le_left _ _)))

theorem read_bits_spec (nbits : Nat) (s : BitReader) (hInv : RInv s) (h64 : nbits ≤ 64)
    (hlen : nbits ≤ (BitReader.rBits s).length) :
    ∃ s2, s.read_bits nbits = .ok (natOfBits ((BitReader.rBits s).take nbits), s2) ∧
      RInv s2 ∧ s2.data = s.data ∧ BitReader.rBits s2 = (BitReader.rBits s).drop nbits := by
  obtain ⟨r2, s1, heq, hle, hle2, hinv1, hdata1, hbits1⟩ :=
    readBitsLoop_spec 0 nbits s 0 (by simp) hInv h64 (Nat.two_pow_pos _) hlen
  simp only [Nat.zero_mul, Nat.zero_add] at heq
  have hlen1 : (BitReader.rBits s1).length = (BitReader.rBits s).length - (nbits - r2) := by
    rw [hbits1, List.length_drop]
  unfold BitReader.read_bits
  rw [if_neg (by omega : ¬ 64 < nbits), heq]
  dsimp only
  rcases Nat.eq_zero_or_pos r2 with hr0 | hrpos
  · subst hr0
    rw [if_neg (by omega)]
    refine ⟨s1, ?_, hinv1, hdata1, ?_⟩
    · rw [Nat.shiftLeft_zero, Nat.sub_zero]
    · rw [hbits1, Nat.sub_zero]
  · rw [if_pos hrpos]
    obtain ⟨hu8, hbuf, hdata⟩ := hinv1
    have hx : s1.buffer >>> (s1.unused - r2) < 2 ^ r2 := shiftRight_lt_of_lt hbuf hle2
    have hsplit1 : BitReader.rBits s1 =
        bitsOfNat s1.unused s1.buffer ++ bytesBits (s1.data.drop s1.pos) := rfl
    have hval : natOfBits ((BitReader.rBits s).take nbits) =
        natOfBits ((BitReader.rBits s).take (nbits - r2)) <<< r2 |||
          s1.buffer >>> (s1.unused - r2) := by
      have hmod0 : (natOfBits ((BitReader.rBits s).take (nbits - r2)) <<< r2) % 2 ^ r2 = 0 := by
        rw [Nat.shiftLeft_eq]
        exact Nat.mul_mod_left _ _
      rw [lor_low_high hmod0 hx]
      have htk : (BitReader.rBits s).take nbits =
          (BitReader.rBits s).take (nbits - r2) ++
            (BitReader.rBits s1).take r2 := by
        rw [hbits1, ← List.take_add,
          show nbits - r2 + r2 = nbits by omega]
      have htklen : ((BitReader.rBits s1).take r2).length = r2 := by
        rw [List.length_take]
        refine min_eq_left ?_
        rw [hsplit1, List.length_append, bitsOfNat_length]
        omega
      have htkval : natOfBits ((BitReader.rBits s1).take r2) =
          s1.buffer >>> (s1.unused - r2) := by
        rw [hsplit1, List.take_append_of_le_length (by rw [bitsOfNat_length]; omega),
          bitsOfNat_take s1.buffer hle2, natOfBits_bitsOfNat, Nat.mod_eq_of_lt hx]
      rw [htk, natOfBits_append, htklen, htkval, Nat.shiftLeft_eq]
    have hmask : maskAt (s1.unused - r2) = 2 ^ (s1.unused - r2) - 1 :=
      maskAt_eq _ (by omega)
    refine ⟨{ s1 with
        buffer := s1.buffer &&& maskAt (s1.unused - r2),
        unused := s1.unused - r2 }, ?_, ?_, hdata1, ?_⟩
    · rw [hval]
    · refine ⟨?_, ?_, hdata⟩
      · show s1.unused - r2 ≤ 8
        omega
      show s1.buffer &&& maskAt (s1.unused - r2) < 2 ^ (s1.unused - r2)
      rw [hmask, Nat.and_pow_two_sub_one_eq_mod]
      exact Nat.mod_lt _ (Nat.two_pow_pos _)
    · show bitsOfNat (s1.unused - r2) (s1.buffer &&& maskAt (s1.unused - r2)) ++
        bytesBits (s1.data.drop s1.pos) = (BitReader.rBits s).drop nbits
      rw [hmask, Nat.and_pow_two_sub_one_eq_mod, bitsOfNat_mod_le _ le_rfl,
        ← bitsOfNat_drop s1.buffer hle2, ← List.drop_append_of_le_length
          (by rw [bitsOfNat_length]; exact hle2), ← hsplit1, hbits1, List.drop_drop,
        show nbits - r2 + r2 = nbits by omega]

theorem readBitsLoop_error (ret rbits : Nat) (s : BitReader) (e : RErr)
    (h : readBitsLoop ret rbits s = .error e) : e = .endOfStream := by
  induction ret, rbits, s using readBitsLoop.induct with
  | case1 ret rbits s hlt r1 rb1 b hb ih =>
    rw [readBitsLoop, if_pos hlt, hb] at h
    exact ih h
  | case2 ret rbits s hlt hb =>
    rw [readBitsLoop, if_pos hlt, hb] at h
    simp only [Except.error.injEq] at h
    exact h.symm
  | case3 ret rbits s hge =>
    rw [readBitsLoop, if_neg hge] at h
    simp at h

theorem readBitsLoop_inv : ∀ (ret rbits : Nat) (s : BitReader) (ret2 rbits2 : Nat)
    (s2 : BitReader), readBitsLoop ret rbits s = .ok (ret2, rbits2, s2) → RInv s →
    RInv s2 ∧ rbits2 ≤ s2.unused := by
  intro ret rbits s
  induction ret, rbits, s using readBitsLoop.induct with
  | case1 ret rbits s hlt r1 rb1 b hb ih =>
    intro ret2 rbits2 s2 h hInv
    rw [readBitsLoop, if_pos hlt, hb] at h
    refine ih ret2 rbits2 s2 h ⟨le_rfl, ?_, ?_⟩
    · show b < 2 ^ 8
      have hb256 : b < 256 := by
        apply hInv.2.2
        obtain ⟨hpos, helem⟩ := List.getElem?_eq_some_iff.mp hb
        rw [← helem]
        exact List.getElem_mem hpos
      omega
    · show ∀ x ∈ s.data, x < 256
      exact hInv.2.2
  | case2 ret rbits s hlt hb =>
    intro ret2 rbits2 s2 h hInv
    rw [readBitsLoop, if_pos hlt, hb] at h
    simp at h
  | case3 ret rbits s hge =>
    intro ret2 rbits2 s2 h hInv
    rw [readBitsLoop, if_neg hge] at h
    simp only [Except.ok.injEq, Prod.mk.injEq] at h
    obtain ⟨-, h2, h3⟩ := h
    subst h2
    subst h3
    exact ⟨hInv, by omega⟩

theorem read_bits_inv (nbits v : Nat) (s s2 : BitReader) (hInv : RInv s)
    (h : s.read_bits nbits = .ok (v, s2)) : RInv s2 := by
  unfold BitReader.read_bits at h
  by_cases h64 : 64 < nbits
  · rw [if_pos h64] at h
    simp at h
  · rw [if_neg h64] at h
    cases hloop : readBitsLoop 0 nbits s with
    | error e =>
      rw [hloop] at h
      simp at h
    | ok t =>
      obtain ⟨ret2, rbits2, s1⟩ := t
      rw [hloop] at h
      dsimp only at h
      obtain ⟨hinv1, hle⟩ := readBitsLoop_inv _ _ _ _ _ _ hloop hInv
      obtain ⟨hu8, hbuf, hdata⟩ := hinv1
      by_cases hr : 0 < rbits2
      · rw [if_pos hr] at h
        simp only [Except.ok.injEq, Prod.mk.injEq] at h
        obtain ⟨-, hs2⟩ := h
        subst hs2
        refine ⟨?_, ?_, hdata⟩
        · show s1.unused - rbits2 ≤ 8
          omega
        · show s1.buffer &&& maskAt (s1.unused - rbits2) < 2 ^ (s1.unused - rbits2)
          rw [maskAt_eq _ (by omega), Nat.and_pow_two_sub_one_eq_mod]
          exact Nat.mod_lt _ (Nat.two_pow_pos _)
      · rw [if_neg hr] at h
        simp only [Except.ok.injEq, Prod.mk.injEq] at h
        obtain ⟨-, hs2⟩ := h
        subst hs2
        exact ⟨hu8, hbuf, hdata⟩

theorem read_bits_gt64 (nbits : Nat) (s : BitReader) (h : 64 < nbits) :
    s.read_bits nbits = .error .assertFail := by
  unfold BitReader.read_bits
  rw [if_pos h]

theorem read_bits_no_assert (nbits : Nat) (s : BitReader) (h : nbits ≤ 64) :
    s.read_bits nbits ≠ .error .assertFail := by
  unfold BitReader.read_bits
  rw [if_neg (by omega)]
  cases hloop : readBitsLoop 0 nbits s with
  | error e =>
    have he := readBitsLoop_error _ _ _ _ hloop
    subst he
    simp
  | ok t =>
    obtain ⟨a, b2, s1⟩ := t
    dsimp only
    by_cases hr : 0 < b2
    · rw [if_pos hr]
      simp
    · rw [if_neg hr]
      simp

theorem read_bit_spec (s : BitReader) (hInv : RInv s)
    (hlen : 1 ≤ (BitReader.rBits s).length) :
    ∃ s2, s.read_bit = .ok (natOfBits ((BitReader.rBits s).take 1), s2) ∧
      RInv s2 ∧ s2.data = s.data ∧ BitReader.rBits s2 = (BitReader.rBits s).drop 1 := by
  obtain ⟨s2, heq, hinv2, hdata2, hbits2⟩ := read_bits_spec 1 s hInv (by omega) hlen
  refine ⟨s2, ?_, hinv2, hdata2, hbits2⟩
  unfold BitReader.read_bit
  rw [heq]
  dsimp only
  rw [Nat.mod_eq_of_lt (lt_of_lt_of_le (natOfBits_take_lt _ _) (by norm_num))]

theorem readBitsAll_spec : ∀ (k : Nat) (s : BitReader), RInv s →
    k ≤ (BitReader.rBits s).length →
    ∃ s2, readBitsAll k s = .ok (((BitReader.rBits s).take k).map (fun b => b.toNat), s2) ∧
      RInv s2 ∧ BitReader.rBits s2 = (BitReader.rBits s).drop k := by
  intro k
  induction k with
  | zero =>
    intro s h hk
    exact ⟨s, rfl, h, by simp⟩
  | succ k ih =>
    intro s hInv hk
    obtain ⟨b, t, hbt⟩ : ∃ b t, BitReader.rBits s = b :: t := by
      cases hc : BitReader.rBits s with
      | nil => rw [hc] at hk; simp at hk
      | cons b t => exact ⟨b, t, rfl⟩
    obtain ⟨s1, heq, hinv1, hdata1, hbits1⟩ := read_bit_spec s hInv (by omega)
    have hlen1 : k ≤ (BitReader.rBits s1).length := by
      rw [hbits1, List.length_drop]
      omega
    obtain ⟨s2, heq2, hinv2, hbits2⟩ := ih s1 hinv1 hlen1
    refine ⟨s2, ?_, hinv2, ?_⟩
    · rw [readBitsAll, heq]
      dsimp only
      rw [heq2]
      dsimp only
      rw [hbt, hbits1, hbt]
      simp [List.take_succ_cons, natOfBits_cons, natOfBits]
    · rw [hbits2, hbits1, List.drop_drop, hbt, Nat.add_comm 1 k]

theorem readSeq_spec : ∀ (ps : List (Nat × Nat)) (s : BitReader) (rest : List Bool),
    RInv s → (∀ p ∈ ps, p.1 ≤ 64 ∧ p.2 < 2 ^ p.1) →
    BitReader.rBits s = pairsBits ps ++ rest →
    ∃ s2, readSeq (ps.map Prod.fst) s = .ok (ps.map Prod.snd, s2) ∧ RInv s2 ∧
      BitReader.rBits s2 = rest := by
  intro ps
  induction ps with
  | nil =>
    intro s rest h hb hr
    exact ⟨s, rfl, h, by simpa [pairsBits] using hr⟩
  | cons p ps ih =>
    intro s rest hInv hps hbits
    have hp := hps p (by simp)
    have hpairs : pairsBits (p :: ps) = bitsOfNat p.1 p.2 ++ pairsBits ps := by
      simp [pairsBits]
    rw [hpairs, List.append_assoc] at hbits
    have hlen : p.1 ≤ (BitReader.rBits s).length := by
      rw [hbits, List.length_append, bitsOfNat_length]
      omega
    obtain ⟨s1, heq, hinv1, hdata1, hbits1⟩ := read_bits_spec p.1 s hInv hp.1 hlen
    have htake : (BitReader.rBits s).take p.1 = bitsOfNat p.1 p.2 := by
      rw [hbits, List.take_left' (bitsOfNat_length _ _)]
    have hdrop : (BitReader.rBits s).drop p.1 = pairsBits ps ++ rest := by
      rw [hbits, List.drop_left' (bitsOfNat_length _ _)]
    obtain ⟨s2, heq2, hinv2, hbits2⟩ :=
      ih s1 rest hinv1 (fun q hq => hps q (by simp [hq])) (by rw [hbits1, hdrop])
    refine ⟨s2, ?_, hinv2, hbits2⟩
    show readSeq (p.1 :: ps.map Prod.fst) s = _
    rw [readSeq, heq]
    dsimp only
    rw [heq2]
    dsimp only
    rw [htake, natOfBits_bitsOfNat, Nat.mod_eq_of_lt hp.2]
    rfl

theorem seek_start_spec (p : Nat) (s : BitReader) (hInv : RInv s)
    (hp : p ≤ 8 * s.data.length) :
    ∃ s2, s.seek (.fromStart p) = .ok (p, s2) ∧ RInv s2 ∧ s2.data = s.data ∧
      BitReader.rBits s2 = (bytesBits s.data).drop p := by
  have hInv1 : RInv { data := s.data, pos := p / 8, buffer := 0, unused := 0 } := by
    refine ⟨?_, ?_, hInv.2.2⟩
    · show (0 : Nat) ≤ 8
      omega
    · show (0 : Nat) < 2 ^ 0
      norm_num
  have hbits1 : BitReader.rBits { data := s.data, pos := p / 8, buffer := 0, unused := 0 } =
      (bytesBits s.data).drop (8 * (p / 8)) := by
    show bitsOfNat 0 0 ++ bytesBits (s.data.drop (p / 8)) = _
    rw [bytesBits_drop]
    rfl
  have hlen1 : p % 8 ≤
      (BitReader.rBits { data := s.data, pos := p / 8, buffer := 0, unused := 0 }).length := by
    rw [hbits1, List.length_drop, bytesBits_length]
    omega
  obtain ⟨s2, heq, hinv2, hdata2, hbits2⟩ :=
    read_bits_spec (p % 8) { data := s.data, pos := p / 8, buffer := 0, unused := 0 }
      hInv1 (by omega) hlen1
  refine ⟨s2, ?_, hinv2, by rw [hdata2], ?_⟩
  · show (match BitReader.read_bits (p % 8)
        { data := s.data, pos := p / 8, buffer := 0, unused := 0 } with
      | Except.error e => (Except.error e : Except RErr (Nat × BitReader))
      | Except.ok (_, s) => Except.ok (p, s)) = Except.ok (p, s2)
    rw [heq]
  · rw [hbits2, hbits1, List.drop_drop, show 8 * (p / 8) + p % 8 = p by omega]

/-! ## Writer correctness -/

theorem merge_low {k : Nat} (B X : Nat) (hk : k ≤ 64) :
    (((B <<< k) % 2 ^ 64) ||| X % 2 ^ k) % 2 ^ k = X % 2 ^ k := by
  rw [lor_low_high (shl_mod_low B hk) (Nat.mod_lt _ (Nat.two_pow_pos _)),
    Nat.add_mod, shl_mod_low B hk, Nat.zero_add, Nat.mod_mod_of_dvd _ dvd_rfl,
    Nat.mod_mod_of_dvd _ dvd_rfl]

theorem merge_high {k : Nat} (B X : Nat) (hk : k ≤ 64) :
    (((B <<< k) % 2 ^ 64) ||| X % 2 ^ k) >>> k = B % 2 ^ (64 - k) := by
  rw [lor_low_high (shl_mod_low B hk) (Nat.mod_lt _ (Nat.two_pow_pos _))]
  obtain ⟨q, hq⟩ : 2 ^ k ∣ (B <<< k) % 2 ^ 64 :=
    Nat.dvd_of_mod_eq_zero (shl_mod_low B hk)
  have h2 := shl_mod_shr B hk
  rw [hq] at h2
  rw [Nat.shiftRight_eq_div_pow] at h2 ⊢
  rw [hq, Nat.mul_add_div (Nat.two_pow_pos k),
    Nat.div_eq_of_lt (Nat.mod_lt _ (Nat.two_pow_pos _)), Nat.add_zero]
  rw [Nat.mul_div_cancel_left _ (Nat.two_pow_pos k)] at h2
  exact h2

theorem mergedByte_bits {u : Nat} (B X : Nat) (hu : u ≤ 8) :
    bitsOfNat 8 ((((B <<< u) % 2 ^ 64) ||| X % 2 ^ u) % 256)
      = bitsOfNat (8 - u) B ++ bitsOfNat u X := by
  rw [show (256 : Nat) = 2 ^ 8 by norm_num, bitsOfNat_mod_le _ le_rfl]
  conv_lhs => rw [show (8 : Nat) = (8 - u) + u by omega]
  rw [bitsOfNat_split]
  congr 1
  · rw [merge_high _ _ (by omega : u ≤ 64), bitsOfNat_mod_le _ (by omega)]
  · rw [show bitsOfNat u (((B <<< u) % 2 ^ 64) ||| X % 2 ^ u) = bitsOfNat u (X % 2 ^ u) from
      bitsOfNat_congr (by rw [merge_low _ _ (by omega : u ≤ 64), Nat.mod_mod_of_dvd _ dvd_rfl]),
      bitsOfNat_mod_le _ le_rfl]

theorem mergedBuf_low {r : Nat} (B X : Nat) (hr : r ≤ 64) :
    bitsOfNat r (((B <<< r) % 2 ^ 64) ||| X % 2 ^ r) = bitsOfNat r X := by
  rw [show bitsOfNat r (((B <<< r) % 2 ^ 64) ||| X % 2 ^ r) = bitsOfNat r (X % 2 ^ r) from
    bitsOfNat_congr (by rw [merge_low _ _ hr, Nat.mod_mod_of_dvd _ dvd_rfl]),
    bitsOfNat_mod_le _ le_rfl]

theorem mergedBuf_high {r m : Nat} (B X : Nat) (hr : r ≤ 64) (hm : m ≤ 64 - r) :
    bitsOfNat m ((((B <<< r) % 2 ^ 64) ||| X % 2 ^ r) >>> r) = bitsOfNat m B := by
  rw [merge_high _ _ hr, bitsOfNat_mod_le _ hm]

theorem pending_split {u2 r : Nat} (B X : Nat) (hr : r ≤ 7) (hu2 : r ≤ u2) (h8 : u2 ≤ 8) :
    bitsOfNat (8 - (u2 - r)) (((B <<< r) % 2 ^ 64) ||| X % 2 ^ r)
      = bitsOfNat (8 - u2) B ++ bitsOfNat r X := by
  conv_lhs => rw [show 8 - (u2 - r) = (8 - u2) + r by omega]
  rw [bitsOfNat_split, mergedBuf_low _ _ (by omega), mergedBuf_high _ _ (by omega) (by omega)]

theorem writeFullBytes_spec : ∀ (rbits value : Nat) (w : BitWriter),
    ∃ bs, writeFullBytes rbits value w =
        (rbits % 8, { output := w.output ++ bs, buffer := w.buffer, unused := w.unused }) ∧
      (∀ b ∈ bs, b < 256) ∧
      bytesBits bs = bitsOfNat (rbits - rbits % 8) (value >>> (rbits % 8)) := by
  intro rbits value w
  induction rbits, value, w using writeFullBytes.induct with
  | case1 rbits value w h8 ih =>
    obtain ⟨bs, heq, hbytes, hbits⟩ := ih
    refine ⟨value >>> (rbits - 8) % 256 :: bs, ?_, ?_, ?_⟩
    · rw [writeFullBytes, if_pos h8, heq, show (rbits - 8) % 8 = rbits % 8 by omega]
      congr 1
      simp
    · intro b hb
      rcases List.mem_cons.mp hb with hb | hb
      · subst hb
        exact Nat.mod_lt _ (by norm_num)
      · exact hbytes b hb
    · rw [bytesBits_cons, hbits, show (rbits - 8) % 8 = rbits % 8 by omega,
        show (256 : Nat) = 2 ^ 8 by norm_num, bitsOfNat_mod_le _ le_rfl]
      conv_rhs => rw [show rbits - rbits % 8 = 8 + (rbits - 8 - rbits % 8) by omega]
      rw [bitsOfNat_split, ← Nat.shiftRight_add,
        show rbits % 8 + (rbits - 8 - rbits % 8) = rbits - 8 by omega]
  | case2 rbits value w h8 =>
    refine ⟨[], ?_, by simp, ?_⟩
    · rw [writeFullBytes, if_neg h8, show rbits % 8 = rbits by omega]
      congr 1
      simp
    · rw [show rbits % 8 = rbits by omega]
      simp [bytesBits_nil, bitsOfNat]

theorem write_bits_spec (nbits value : Nat) (w : BitWriter) (hw : WInv w) (h64 : nbits ≤ 64) :
    ∃ w2, w.write_bits nbits value = some (nbits, w2) ∧ WInv w2 ∧
      BitWriter.wBits w2 = BitWriter.wBits w ++ bitsOfNat nbits value := by
  obtain ⟨hu1, hu8, hout⟩ := hw
  simp only [BitWriter.write_bits, if_neg (by omega : ¬ 64 < nbits)]
  by_cases hg : w.unused ≤ nbits ∧ w.unused < 8
  · -- the partial byte is completed and emitted
    rw [if_pos hg]
    dsimp only
    obtain ⟨bs, hfb, hbsB, hbsbits⟩ := writeFullBytes_spec (nbits - w.unused) value
      { output := w.output ++
          [(((w.buffer <<< w.unused) % 2 ^ 64) |||
            (value >>> (nbits - w.unused)) &&& maskAt w.unused) % 256],
        buffer := 0, unused := 8 }
    rw [hfb]
    dsimp only
    have hmu : maskAt w.unused = 2 ^ w.unused - 1 := maskAt_eq _ (by omega)
    have hbyte : bitsOfNat 8 ((((w.buffer <<< w.unused) % 2 ^ 64) |||
          (value >>> (nbits - w.unused)) &&& maskAt w.unused) % 256)
        = bitsOfNat (8 - w.unused) w.buffer ++
          bitsOfNat w.unused (value >>> (nbits - w.unused)) := by
      rw [hmu, Nat.and_pow_two_sub_one_eq_mod]
      exact mergedByte_bits _ _ (by omega)
    have hv1 : bitsOfNat nbits value =
        bitsOfNat w.unused (value >>> (nbits - w.unused)) ++
          bitsOfNat (nbits - w.unused) value := by
      conv_lhs => rw [show nbits = w.unused + (nbits - w.unused) by omega]
      rw [bitsOfNat_split]
    have hv2 : bitsOfNat (nbits - w.unused) value =
        bitsOfNat (nbits - w.unused - (nbits - w.unused) % 8)
            (value >>> ((nbits - w.unused) % 8)) ++
          bitsOfNat ((nbits - w.unused) % 8) value := by
      conv_lhs => rw [show nbits - w.unused =
        (nbits - w.unused - (nbits - w.unused) % 8) + (nbits - w.unused) % 8 by omega]
      rw [bitsOfNat_split]
    by_cases he : 0 < (nbits - w.unused) % 8
    · rw [if_pos he]
      refine ⟨_, rfl, ⟨?_, ?_, ?_⟩, ?_⟩
      · show 1 ≤ 8 - (nbits - w.unused) % 8
        omega
      · show 8 - (nbits - w.unused) % 8 ≤ 8
        omega
      · show ∀ b ∈ (w.output ++ [_]) ++ bs, b < 256
        intro b hb
        rcases List.mem_append.mp hb with hb | hb
        · rcases List.mem_append.mp hb with hb | hb
          · exact hout b hb
          · rcases List.mem_singleton.mp hb with rfl
            exact Nat.mod_lt _ (by norm_num)
        · exact hbsB b hb
      · show bytesBits ((w.output ++ [_]) ++ bs) ++
          bitsOfNat (8 - (8 - (nbits - w.unused) % 8))
            (((0 <<< ((nbits - w.unused) % 8)) % 2 ^ 64) |||
              value &&& maskAt ((nbits - w.unused) % 8))
          = BitWriter.wBits w ++ bitsOfNat nbits value
        rw [bytesBits_append, bytesBits_append, bytesBits_cons, bytesBits_nil,
          List.append_nil, hbyte, hbsbits,
          maskAt_eq _ (by omega : (nbits - w.unused) % 8 < 8),
          Nat.and_pow_two_sub_one_eq_mod, Nat.zero_shiftLeft, Nat.zero_mod, Nat.zero_or,
          show 8 - (8 - (nbits - w.unused) % 8) = (nbits - w.unused) % 8 by omega,
          bitsOfNat_mod_le _ le_rfl, BitWriter.wBits, hv1, hv2]
        simp [List.append_assoc]
    · rw [if_neg he]
      refine ⟨_, rfl, ⟨?_, ?_, ?_⟩, ?_⟩
      · show (1 : Nat) ≤ 8
        omega
      · show (8 : Nat) ≤ 8
        omega
      · show ∀ b ∈ (w.output ++ [_]) ++ bs, b < 256
        intro b hb
        rcases List.mem_append.mp hb with hb | hb
        · rcases List.mem_append.mp hb with hb | hb
          · exact hout b hb
          · rcases List.mem_singleton.mp hb with rfl
            exact Nat.mod_lt _ (by norm_num)
        · exact hbsB b hb
      · show bytesBits ((w.output ++ [_]) ++ bs) ++ bitsOfNat (8 - 8) 0
          = BitWriter.wBits w ++ bitsOfNat nbits value
        rw [show (8 - 8 : Nat) = 0 by omega]
        rw [show (nbits - w.unused) % 8 = 0 by omega] at hbsbits hv2
        rw [bytesBits_append, bytesBits_append, bytesBits_cons, bytesBits_nil,
          List.append_nil, hbyte, hbsbits, BitWriter.wBits, hv1, hv2, Nat.shiftRight_zero]
        simp [bitsOfNat, List.append_assoc]
  · -- no partial byte is completed up front
    rw [if_neg hg]
    dsimp only
    obtain ⟨bs, hfb, hbsB, hbsbits⟩ := writeFullBytes_spec nbits value w
    rw [hfb]
    dsimp only
    have hcase : nbits < w.unused ∨ w.unused = 8 := by
      rcases Nat.lt_or_ge nbits w.unused with h | h
      · exact Or.inl h
      · right
        have h8 : ¬ w.unused < 8 := fun hlt => hg ⟨h, hlt⟩
        omega
    have he8le : nbits % 8 ≤ w.unused := by
      rcases hcase with h | h
      · have : nbits % 8 ≤ nbits := Nat.mod_le _ _
        omega
      · omega
    have houtbs : ∀ b ∈ w.output ++ bs, b < 256 := by
      intro b hb
      rcases List.mem_append.mp hb with hb | hb
      · exact hout b hb
      · exact hbsB b hb
    by_cases he : 0 < nbits % 8
    · rw [if_pos he]
      refine ⟨_, rfl, ⟨?_, ?_, houtbs⟩, ?_⟩
      · show 1 ≤ w.unused - nbits % 8
        omega
      · show w.unused - nbits % 8 ≤ 8
        omega
      · show bytesBits (w.output ++ bs) ++
          bitsOfNat (8 - (w.unused - nbits % 8))
            (((w.buffer <<< (nbits % 8)) % 2 ^ 64) ||| value &&& maskAt (nbits % 8))
          = BitWriter.wBits w ++ bitsOfNat nbits value
        rw [maskAt_eq _ (by omega), Nat.and_pow_two_sub_one_eq_mod,
          pending_split _ _ (by omega) he8le hu8, bytesBits_append, BitWriter.wBits]
        rcases hcase with hlt | h8
        · have hmod : nbits % 8 = nbits := by omega
          rw [hmod] at hbsbits ⊢
          rw [hbsbits, show nbits - nbits = 0 by omega]
          simp [bitsOfNat, List.append_assoc]
        · rw [h8, hbsbits, show (8 - 8 : Nat) = 0 by omega]
          have hvs : bitsOfNat nbits value =
              bitsOfNat (nbits - nbits % 8) (value >>> (nbits % 8)) ++
                bitsOfNat (nbits % 8) value := by
            conv_lhs => rw [show nbits = (nbits - nbits % 8) + nbits % 8 by omega]
            rw [bitsOfNat_split]
          rw [hvs]
          simp [bitsOfNat, List.append_assoc]
    · rw [if_neg he]
      refine ⟨_, rfl, ⟨?_, ?_, houtbs⟩, ?_⟩
      · show 1 ≤ w.unused
        omega
      · show w.unused ≤ 8
        omega
      show bytesBits (w.output ++ bs) ++ bitsOfNat (8 - w.unused) w.buffer
          = BitWriter.wBits w ++ bitsOfNat nbits value
      rw [bytesBits_append, BitWriter.wBits]
      rw [show nbits % 8 = 0 by omega] at hbsbits
      rcases hcase with hlt | h8
      · have hn0 : nbits = 0 := by omega
        rw [hn0] at hbsbits ⊢
        rw [hbsbits]
        simp [bitsOfNat]
      · rw [h8, hbsbits, Nat.shiftRight_zero, show nbits - 0 = nbits by omega,
          show (8 - 8 : Nat) = 0 by omega]
        simp [bitsOfNat, List.append_assoc]

theorem wBits_length (w : BitWriter) :
    (BitWriter.wBits w).length = 8 * w.output.length + (8 - w.unused) := by
  rw [BitWriter.wBits, List.length_append, bytesBits_length, bitsOfNat_length]

theorem flush_bits_aligned (w : BitWriter) (h : w.unused = 8) : w.flush_bits = (0, w) := by
  unfold BitWriter.flush_bits
  rw [if_neg (by omega)]

theorem flush_bits_spec (w : BitWriter) (hw : WInv w) :
    ∃ k w2, w.flush_bits = (k, w2) ∧ k < 8 ∧ w2.unused = 8 ∧ WInv w2 ∧
      bytesBits w2.output = BitWriter.wBits w ++ List.replicate k false ∧
      8 * w2.output.length = (BitWriter.wBits w).length + k := by
  obtain ⟨hu1, hu8, hout⟩ := hw
  by_cases h8 : w.unused = 8
  · refine ⟨0, w, flush_bits_aligned w h8, by omega, h8, ⟨hu1, hu8, hout⟩, ?_, ?_⟩
    · rw [BitWriter.wBits, h8]
      simp [bitsOfNat]
    · rw [wBits_length, h8]
      omega
  · have hb8 : bitsOfNat 8 ((w.buffer <<< w.unused) % 2 ^ 64 % 256) =
        bitsOfNat (8 - w.unused) w.buffer ++ List.replicate w.unused false := by
      have hm := mergedByte_bits w.buffer 0 hu8
      rw [Nat.zero_mod, Nat.or_zero] at hm
      rw [hm, bitsOfNat_zero]
    refine ⟨w.unused, { w with
        output := w.output ++ [(w.buffer <<< w.unused) % 2 ^ 64 % 256], unused := 8 },
      ?_, by omega, rfl, ⟨?_, ?_, ?_⟩, ?_, ?_⟩
    · unfold BitWriter.flush_bits
      rw [if_pos h8]
    · show (1 : Nat) ≤ 8
      omega
    · show (8 : Nat) ≤ 8
      omega
    · show ∀ b ∈ w.output ++ [(w.buffer <<< w.unused) % 2 ^ 64 % 256], b < 256
      intro b hb
      rcases List.mem_append.mp hb with hb | hb
      · exact hout b hb
      · rcases List.mem_singleton.mp hb with rfl
        exact Nat.mod_lt _ (by norm_num)
    · show bytesBits (w.output ++ [(w.buffer <<< w.unused) % 2 ^ 64 % 256]) = _
      rw [bytesBits_append, bytesBits_cons, bytesBits_nil, List.append_nil, hb8,
        BitWriter.wBits, List.append_assoc]
    · show 8 * (w.output ++ [(w.buffer <<< w.unused) % 2 ^ 64 % 256]).length = _
      rw [List.length_append, List.length_singleton, wBits_length]
      omega

theorem writeSeq_spec : ∀ (ps : List (Nat × Nat)) (w : BitWriter), WInv w →
    (∀ p ∈ ps, p.1 ≤ 64) →
    ∃ w2, writeSeq ps w = some w2 ∧ WInv w2 ∧
      BitWriter.wBits w2 = BitWriter.wBits w ++ pairsBits ps := by
  intro ps
  induction ps with
  | nil =>
    intro w hw hps
    exact ⟨w, rfl, hw, by simp [pairsBits]⟩
  | cons p ps ih =>
    intro w hw hps
    obtain ⟨w1, heq, hw1, hbits1⟩ := write_bits_spec p.1 p.2 w hw (hps p (by simp))
    obtain ⟨w2, heq2, hw2, hbits2⟩ := ih w1 hw1 (fun q hq => hps q (by simp [hq]))
    refine ⟨w2, ?_, hw2, ?_⟩
    · rw [writeSeq, heq]
      dsimp only
      exact heq2
    · rw [hbits2, hbits1, List.append_assoc]
      congr 1

theorem write_bits_gt64 (nbits value : Nat) (w : BitWriter) (h : 64 < nbits) :
    w.write_bits nbits value = none := by
  unfold BitWriter.write_bits
  rw [if_pos h]

theorem write_bits_le64_some (nbits value : Nat) (w : BitWriter) (h : nbits ≤ 64) :
    ∃ r w2, w.write_bits nbits value = some (r, w2) := by
  simp only [BitWriter.write_bits, if_neg (by omega : ¬ 64 < nbits)]
  exact ⟨_, _, rfl⟩

theorem write_bit_gt1 (b : Nat) (w : BitWriter) (h : 1 < b) : w.write_bit b = none := by
  unfold BitWriter.write_bit
  rw [if_pos h]

theorem write_bit_some (b : Nat) (w : BitWriter) (h : b ≤ 1) :
    ∃ w2, w.write_bit b = some w2 := by
  unfold BitWriter.write_bit
  rw [if_neg (by omega)]
  obtain ⟨r, w2, heq⟩ := write_bits_le64_some 1 b w (by omega)
  rw [heq]
  exact ⟨w2, rfl⟩

theorem WInv_new : WInv BitWriter.new := by
  refine ⟨?_, ?_, ?_⟩
  · show (1 : Nat) ≤ 8
    omega
  · show (8 : Nat) ≤ 8
    omega
  · show ∀ b ∈ ([] : List Nat), b < 256
    simp

theorem RInv_new (data : List Nat) (h : ∀ b ∈ data, b < 256) : RInv (BitReader.new data) := by
  refine ⟨?_, ?_, h⟩
  · show (0 : Nat) ≤ 8
    omega
  · show (0 : Nat) < 2 ^ 0
    norm_num

theorem wBits_new : BitWriter.wBits BitWriter.new = [] := by
  show bytesBits [] ++ bitsOfNat (8 - 8) 0 = []
  simp [bytesBits_nil, bitsOfNat]

theorem rBits_new (data : List Nat) :
    BitReader.rBits (BitReader.new data) = bytesBits data := by
  show bitsOfNat 0 0 ++ bytesBits (data.drop 0) = bytesBits data
  simp [bitsOfNat]

theorem pairsBits_length (ps : List (Nat × Nat)) :
    (pairsBits ps).length = (ps.map Prod.fst).sum := by
  induction ps with
  | nil => rfl
  | cons p ps ih =>
    show (bitsOfNat p.1 p.2 ++ pairsBits ps).length = _
    rw [List.length_append, bitsOfNat_length, ih]
    simp

/-! ## Claims -/

/-- C1: writing an ordered sequence of `(nbits, value)` pairs (each `nbits ≤ 64`,
each value masked to its low `nbits` bits) with `write_bits` into a fresh
`BitWriter` over a growable sink, flushing once at the end, and reading the
same sequence of widths back with `read_bits` from a `BitReader` over the
produced bytes yields exactly each masked value, in order; in particular this
holds for a single pair. -/
theorem C1_sequence_round_trip (ps : List (Nat × Nat))
    (hps : ∀ p ∈ ps, p.1 ≤ 64 ∧ p.2 < 2 ^ p.1) :
    ∃ w k w2 s2,
      writeSeq ps BitWriter.new = some w ∧
      w.flush = (k, w2) ∧
      readSeq (ps.map Prod.fst) (BitReader.new w2.output) = .ok (ps.map Prod.snd, s2) := by
  obtain ⟨w, hw, hwinv, hbits⟩ :=
    writeSeq_spec ps BitWriter.new WInv_new (fun p hp => (hps p hp).1)
  rw [wBits_new, List.nil_append] at hbits
  obtain ⟨k, w2, hfl, hk, hal, hwinv2, hbytes, hlen⟩ := flush_bits_spec w hwinv
  have hrinv : RInv (BitReader.new w2.output) := RInv_new _ hwinv2.2.2
  have hrb : BitReader.rBits (BitReader.new w2.output) =
      pairsBits ps ++ List.replicate k false := by
    rw [rBits_new, hbytes, hbits]
  obtain ⟨s2, hrs, -, -⟩ := readSeq_spec ps (BitReader.new w2.output) _ hrinv hps hrb
  exact ⟨w, k, w2, s2, hw, hfl, hrs⟩

theorem C1_witness :
    (∀ p ∈ [((12 : Nat), (0xABC : Nat)), (1, 1), (64, 2 ^ 64 - 1), (0, 0), (7, 0x55)],
      p.1 ≤ 64 ∧ p.2 < 2 ^ p.1) ∧
    ∃ w k w2 s2,
      writeSeq [((12 : Nat), (0xABC : Nat)), (1, 1), (64, 2 ^ 64 - 1), (0, 0), (7, 0x55)]
        BitWriter.new = some w ∧
      w.flush = (k, w2) ∧
      readSeq ([((12 : Nat), (0xABC : Nat)), (1, 1), (64, 2 ^ 64 - 1), (0, 0),
          (7, 0x55)].map Prod.fst)
        (BitReader.new w2.output) =
        .ok ([((12 : Nat), (0xABC : Nat)), (1, 1), (64, 2 ^ 64 - 1), (0, 0),
          (7, 0x55)].map Prod.snd, s2) :=
  ⟨by decide, C1_sequence_round_trip _ (by decide)⟩

/-- C2: for `nbits ≤ 64` and a reader holding at least `nbits` more bits,
`read_bits nbits` succeeds and returns the next `nbits` bits of the stream as
an unsigned integer below `2 ^ nbits` (so its top `64 - nbits` bits are zero),
the earliest-read bit occupying the most significant of the requested bit
positions (the value is `natOfBits` of the MSB-first bit list), spanning any
number of byte boundaries; this includes `nbits = 64` with an empty cache. -/
theorem C2_read_bits_correct (nbits : Nat) (s : BitReader) (hInv : RInv s)
    (h64 : nbits ≤ 64) (hlen : nbits ≤ (BitReader.rBits s).length) :
    ∃ v s2, s.read_bits nbits = .ok (v, s2) ∧
      v = natOfBits ((BitReader.rBits s).take nbits) ∧ v < 2 ^ nbits ∧
      BitReader.rBits s2 = (BitReader.rBits s).drop nbits := by
  obtain ⟨s2, heq, hinv2, hdata2, hbits2⟩ := read_bits_spec nbits s hInv h64 hlen
  exact ⟨_, s2, heq, rfl, natOfBits_take_lt _ _, hbits2⟩

theorem C2_witness :
    (RInv (BitReader.new [1, 2, 3, 4, 5, 6, 7, 8]) ∧
      (64 : Nat) ≤ 64 ∧
      64 ≤ (BitReader.rBits (BitReader.new [1, 2, 3, 4, 5, 6, 7, 8])).length ∧
      (BitReader.new [1, 2, 3, 4, 5, 6, 7, 8]).unused = 0) ∧
    ∃ v s2, (BitReader.new [1, 2, 3, 4, 5, 6, 7, 8]).read_bits 64 = .ok (v, s2) ∧
      v = natOfBits ((BitReader.rBits (BitReader.new [1, 2, 3, 4, 5, 6, 7, 8])).take 64) ∧
      v < 2 ^ 64 ∧
      BitReader.rBits s2 =
        (BitReader.rBits (BitReader.new [1, 2, 3, 4, 5, 6, 7, 8])).drop 64 :=
  ⟨⟨by decide, by decide, by decide, rfl⟩,
    C2_read_bits_correct 64 (BitReader.new [1, 2, 3, 4, 5, 6, 7, 8])
      (by decide) (by decide) (by decide)⟩

/-- C3: evaluation of the end-relative seek at concrete inputs, documenting
how the code diverges from the specified postcondition.  Over the 2-byte
source `[0xAB, 0xCD]` (`8N = 16`): `seek (End (-4))` fails with `endOfStream`
instead of positioning 4 bits before the end and returning 12;
`seek (End (-8))` does land 8 bits before the end (cursor at byte 1, no cached
bits) but returns 0 instead of the absolute bit offset 8; `seek (End (-16))`
fails seeking the underlying source to a negative position instead of
positioning at bit 0 and returning 0. -/
theorem C3_seek_end_eval :
    BitReader.seek (.fromEnd (-4)) (BitReader.new [0xAB, 0xCD]) = .error .endOfStream ∧
    BitReader.seek (.fromEnd (-8)) (BitReader.new [0xAB, 0xCD]) =
      .ok (0, ⟨[0xAB, 0xCD], 1, 0, 0⟩) ∧
    BitReader.seek (.fromEnd (-16)) (BitReader.new [0xAB, 0xCD]) =
      .error .negativeSeek := by
  refine ⟨?_, ?_, ?_⟩ <;>
    · simp [BitReader.seek, BitReader.reset, BitReader.new, BitReader.read_bits,
        readBitsLoop, maskAt, MASKS]
      try decide

/-- C4: over an `N`-byte seekable source, `seek (Start p)` for `0 ≤ p ≤ 8N`
succeeds, returns `p`, leaves the reader's remaining bit stream equal to the
suffix of the full bit sequence starting at bit `p` (cached state reset, the
underlying source at byte `p / 8` with `p % 8` leading bits discarded), and
reading all `8N - p` remaining bits back one at a time reproduces exactly
that suffix. -/
theorem C4_seek_start (p : Nat) (s : BitReader) (hInv : RInv s)
    (hp : p ≤ 8 * s.data.length) :
    ∃ s2 s3, s.seek (.fromStart p) = .ok (p, s2) ∧ s2.data = s.data ∧
      BitReader.rBits s2 = (bytesBits s.data).drop p ∧
      readBitsAll (8 * s.data.length - p) s2 =
        .ok (((bytesBits s.data).drop p).map (fun b => b.toNat), s3) := by
  obtain ⟨s2, heq, hinv2, hdata2, hbits2⟩ := seek_start_spec p s hInv hp
  have hlen : 8 * s.data.length - p ≤ (BitReader.rBits s2).length := by
    rw [hbits2, List.length_drop, bytesBits_length]
  obtain ⟨s3, hra, -, -⟩ := readBitsAll_spec (8 * s.data.length - p) s2 hinv2 hlen
  refine ⟨s2, s3, heq, hdata2, hbits2, ?_⟩
  rw [hra]
  congr 2
  rw [hbits2]
  rw [List.take_of_length_le]
  rw [List.length_drop, bytesBits_length]

theorem C4_witness :
    (RInv (BitReader.new [0xAB, 0xCD]) ∧
      (5 : Nat) ≤ 8 * (BitReader.new [0xAB, 0xCD]).data.length) ∧
    ∃ s2 s3, (BitReader.new [0xAB, 0xCD]).seek (.fromStart 5) = .ok (5, s2) ∧
      s2.data = (BitReader.new [0xAB, 0xCD]).data ∧
      BitReader.rBits s2 = (bytesBits (BitReader.new [0xAB, 0xCD]).data).drop 5 ∧
      readBitsAll (8 * (BitReader.new [0xAB, 0xCD]).data.length - 5) s2 =
        .ok (((bytesBits (BitReader.new [0xAB, 0xCD]).data).drop 5).map
          (fun b => b.toNat), s3) :=
  ⟨⟨by decide, by decide⟩,
    C4_seek_start 5 (BitReader.new [0xAB, 0xCD]) (by decide) (by decide)⟩

/-- C5: on a fresh `BitWriter` over an empty sink, `write_bits 12 0xABC`
followed by `flush` produces exactly the two output bytes `0xAB` then `0xC0`
(the 12 value bits MSB-first, then 4 zero padding bits at the low end of the
final byte), and the flush (via `flush_bits`) returns the padding count 4. -/
theorem C5_concrete_write_flush :
    BitWriter.new.write_bits 12 0xABC = some (12, ⟨[0xAB], 0xC, 4⟩) ∧
    BitWriter.flush ⟨[0xAB], 0xC, 4⟩ = (4, ⟨[0xAB, 0xC0], 0xC, 8⟩) := by
  constructor
  · simp [BitWriter.write_bits, writeFullBytes, BitWriter.new, maskAt, MASKS]
    decide
  · simp [BitWriter.flush, BitWriter.flush_bits]

/-- C6: after any sequence of successful `write_bits` calls on a fresh
`BitWriter`, `flush_bits` returns a padding count `k` with `0 ≤ k < 8`, the
total number of bits written plus `k` is a multiple of 8, and afterwards the
accumulator is byte-aligned (`unused = 8`) so an immediately repeated
`flush_bits` returns 0 and changes nothing. -/
theorem C6_flush_invariant (ps : List (Nat × Nat)) (w : BitWriter)
    (hps : ∀ p ∈ ps, p.1 ≤ 64) (hw : writeSeq ps BitWriter.new = some w) :
    ∃ k w2, w.flush_bits = (k, w2) ∧ k < 8 ∧
      ((ps.map Prod.fst).sum + k) % 8 = 0 ∧ w2.unused = 8 ∧
      w2.flush_bits = (0, w2) := by
  obtain ⟨w', hw', hwinv, hbits⟩ := writeSeq_spec ps BitWriter.new WInv_new hps
  rw [hw'] at hw
  injection hw with hw
  subst hw
  obtain ⟨k, w2, hfl, hk, hal, hwinv2, hbytes, hlen⟩ := flush_bits_spec w' hwinv
  refine ⟨k, w2, hfl, hk, ?_, hal, flush_bits_aligned w2 hal⟩
  have hsum : (BitWriter.wBits w').length = (ps.map Prod.fst).sum := by
    rw [hbits, wBits_new, List.nil_append, pairsBits_length]
  omega

theorem C6_witness :
    ((∀ p ∈ [((4 : Nat), (10 : Nat)), (5, 3)], p.1 ≤ 64) ∧
      writeSeq [((4 : Nat), (10 : Nat)), (5, 3)] BitWriter.new = some ⟨[161], 1, 7⟩) ∧
    ∃ k w2, BitWriter.flush_bits ⟨[161], 1, 7⟩ = (k, w2) ∧ k < 8 ∧
      (([((4 : Nat), (10 : Nat)), (5, 3)].map Prod.fst).sum + k) % 8 = 0 ∧
      w2.unused = 8 ∧ w2.flush_bits = (0, w2) :=
  ⟨⟨by decide, by
      simp [writeSeq, BitWriter.write_bits, writeFullBytes, BitWriter.new, maskAt, MASKS]
      decide⟩,
    C6_flush_invariant [((4 : Nat), (10 : Nat)), (5, 3)] ⟨[161], 1, 7⟩ (by decide)
      (by
        simp [writeSeq, BitWriter.write_bits, writeFullBytes, BitWriter.new, maskAt, MASKS]
        decide)⟩

/-- C7: `read_bits nbits` with `nbits > 64` terminates abnormally (the
`assert!` fires, modelled as `RErr.assertFail`) rather than returning a value;
`write_bits nbits _` with `nbits > 64` and `write_bit` with a bit value
outside `{0, 1}` likewise fail their assertions (modelled as `none`); and for
every `nbits ≤ 64` (resp. bit value `≤ 1`) the assertion never fires. -/
theorem C7_preconditions :
    (∀ (nbits : Nat) (s : BitReader), 64 < nbits →
      s.read_bits nbits = .error .assertFail) ∧
    (∀ (nbits value : Nat) (w : BitWriter), 64 < nbits →
      w.write_bits nbits value = none) ∧
    (∀ (b : Nat) (w : BitWriter), 1 < b → w.write_bit b = none) ∧
    (∀ (nbits : Nat) (s : BitReader), nbits ≤ 64 →
      s.read_bits nbits ≠ .error .assertFail) ∧
    (∀ (nbits value : Nat) (w : BitWriter), nbits ≤ 64 →
      w.write_bits nbits value ≠ none) ∧
    (∀ (b : Nat) (w : BitWriter), b ≤ 1 → w.write_bit b ≠ none) := by
  refine ⟨fun n s h => read_bits_gt64 n s h, fun n v w h => write_bits_gt64 n v w h,
    fun b w h => write_bit_gt1 b w h, fun n s h => read_bits_no_assert n s h, ?_, ?_⟩
  · intro n v w h hnone
    obtain ⟨r, w2, heq⟩ := write_bits_le64_some n v w h
    rw [heq] at hnone
    exact Option.noConfusion hnone
  · intro b w h hnone
    obtain ⟨w2, heq⟩ := write_bit_some b w h
    rw [heq] at hnone
    exact Option.noConfusion hnone

theorem C7_witness :
    BitReader.read_bits 65 (BitReader.new []) = .error .assertFail ∧
    BitWriter.write_bits 65 0 BitWriter.new = none ∧
    BitWriter.write_bit 2 BitWriter.new = none ∧
    BitReader.read_bits 64 (BitReader.new []) ≠ .error .assertFail ∧
    BitWriter.write_bits 64 0 BitWriter.new ≠ none ∧
    BitWriter.write_bit 1 BitWriter.new ≠ none :=
  ⟨C7_preconditions.1 65 _ (by decide), C7_preconditions.2.1 65 0 _ (by decide),
    C7_preconditions.2.2.1 2 _ (by decide), C7_preconditions.2.2.2.1 64 _ (by decide),
    C7_preconditions.2.2.2.2.1 64 0 _ (by decide),
    C7_preconditions.2.2.2.2.2 1 _ (by decide)⟩

/-- C8, counterexample to the invariant as stated: reading 3 bits from a
fresh reader over the byte `0b10110101` succeeds and leaves
`buffer = 0b10101 = 21` with `unused = 5`, and the bits of the cached byte at
positions below `8 - unused = 3` are not zero (`21 % 2 ^ 3 = 5 ≠ 0`): the
code masks off the consumed high-order bits and keeps the still-unread bits
in the low-order positions, not the other way around. -/
theorem C8_cex :
    BitReader.read_bits 3 (BitReader.new [0b10110101]) =
      .ok (5, ⟨[0b10110101], 1, 21, 5⟩) ∧
    ¬ (21 % 2 ^ (8 - 5) = 0) := by
  constructor
  · simp [BitReader.read_bits, readBitsLoop, BitReader.new, maskAt, MASKS]
    decide
  · decide

/-- C8 as amended: after `new` and `reset`, `unused = 0` and the cached byte
is zero; `unused` always lies in `[0, 8]`; and after every successful
`read_bit`/`read_bits` call the still-unread valid bits occupy the low-order
`unused` positions of the cached byte while the bits at positions at or above
`unused` (the consumed bits, masked off) are zero, i.e.
`buffer < 2 ^ unused`. -/
theorem C8_amended_invariant :
    (∀ data : List Nat, (BitReader.new data).unused = 0 ∧
      (BitReader.new data).unused ≤ 8 ∧
      (BitReader.new data).buffer < 2 ^ (BitReader.new data).unused) ∧
    (∀ s : BitReader, (BitReader.reset s).unused = 0 ∧
      (BitReader.reset s).buffer < 2 ^ (BitReader.reset s).unused) ∧
    (∀ (n v : Nat) (s s2 : BitReader), RInv s → s.read_bits n = .ok (v, s2) →
      s2.unused ≤ 8 ∧ s2.buffer < 2 ^ s2.unused) ∧
    (∀ (v : Nat) (s s2 : BitReader), RInv s → s.read_bit = .ok (v, s2) →
      s2.unused ≤ 8 ∧ s2.buffer < 2 ^ s2.unused) := by
  refine ⟨?_, ?_, ?_, ?_⟩
  · intro data
    refine ⟨rfl, ?_, ?_⟩
    · show (0 : Nat) ≤ 8
      norm_num
    · show (0 : Nat) < 2 ^ 0
      norm_num
  · intro s
    refine ⟨rfl, ?_⟩
    show (0 : Nat) < 2 ^ 0
    norm_num
  · intro n v s s2 hInv h
    have hi := read_bits_inv n v s s2 hInv h
    exact ⟨hi.1, hi.2.1⟩
  · intro v s s2 hInv h
    unfold BitReader.read_bit at h
    cases hr : s.read_bits 1 with
    | error e =>
      rw [hr] at h
      simp at h
    | ok t =>
      obtain ⟨b, s1⟩ := t
      rw [hr] at h
      dsimp only at h
      simp only [Except.ok.injEq, Prod.mk.injEq] at h
      obtain ⟨-, hs2⟩ := h
      subst hs2
      have hi := read_bits_inv 1 b s s1 hInv hr
      exact ⟨hi.1, hi.2.1⟩

theorem C8_amended_witness :
    (RInv (BitReader.new [0b10110101]) ∧
      BitReader.read_bits 3 (BitReader.new [0b10110101]) =
        .ok (5, ⟨[0b10110101], 1, 21, 5⟩)) ∧
    ((⟨[0b10110101], 1, 21, 5⟩ : BitReader).unused ≤ 8 ∧
      (⟨[0b10110101], 1, 21, 5⟩ : BitReader).buffer <
        2 ^ (⟨[0b10110101], 1, 21, 5⟩ : BitReader).unused) :=
  ⟨⟨by decide, by
      simp [BitReader.read_bits, readBitsLoop, BitReader.new, maskAt, MASKS]
      decide⟩,
    C8_amended_invariant.2.2.1 3 5 (BitReader.new [0b10110101])
      ⟨[0b10110101], 1, 21, 5⟩ (by decide)
      (by
        simp [BitReader.read_bits, readBitsLoop, BitReader.new, maskAt, MASKS]
        decide)⟩

/-- C9: for every reader state and every underlying stream content,
`seek (End p)` with `p ≥ 0` and `seek (Current q)` with any `q` fail with the
"operation not supported" error rather than seeking or approximating. -/
theorem C9_unsupported_seek (s : BitReader) (p q : Int) (hp : 0 ≤ p) :
    s.seek (.fromEnd p) = .error .unsupported ∧
    s.seek (.fromCurrent q) = .error .unsupported := by
  constructor
  · simp only [BitReader.seek]
    rw [if_neg (by omega : ¬ p < 0)]
  · rfl

theorem C9_witness :
    BitReader.seek (.fromEnd 0) (BitReader.new [1, 2]) = .error .unsupported ∧
    BitReader.seek (.fromCurrent 5) (BitReader.new [1, 2]) = .error .unsupported :=
  C9_unsupported_seek (BitReader.new [1, 2]) 0 5 (by decide)

/-- C10: zero-width operations are complete no-ops: for every reader state,
`read_bits 0` returns `Ok 0` without touching the underlying source, the
cached byte or `unused`; for every writer state with a non-full accumulator
counter (`1 ≤ unused`, which holds in every reachable state) and every value,
`write_bits 0 value` returns `Ok 0` without emitting any byte and leaves the
accumulator and `unused` unchanged. -/
theorem C10_zero_width (s : BitReader) (w : BitWriter) (value : Nat)
    (hw : 1 ≤ w.unused) :
    s.read_bits 0 = .ok (0, s) ∧ w.write_bits 0 value = some (0, w) := by
  constructor
  · unfold BitReader.read_bits
    rw [if_neg (by omega), readBitsLoop, if_neg (by omega)]
    dsimp only
    rw [if_neg (by omega)]
  · simp only [BitWriter.write_bits, if_neg (by omega : ¬ (64 : Nat) < 0)]
    rw [if_neg (by intro hc; omega : ¬ (w.unused ≤ 0 ∧ w.unused < 8))]
    dsimp only
    rw [writeFullBytes, if_neg (by omega : ¬ (8 : Nat) ≤ 0)]
    dsimp only
    rw [if_neg (by omega : ¬ (0 : Nat) < 0)]

theorem C10_witness :
    BitReader.read_bits 0 (BitReader.new [7]) = .ok (0, BitReader.new [7]) ∧
    BitWriter.write_bits 0 0xFFFF BitWriter.new = some (0, BitWriter.new) :=
  C10_zero_width (BitReader.new [7]) BitWriter.new 0xFFFF (by decide)
